import Mathlib

/-!
Verification development for the latex-merge-changes core
(src/latex_merge_changes/core.py).

The buffer is modelled as a list of characters; positions are natural
numbers.  All definitions are translated from the source: the brace
matcher find_balanced_braces, the command regex (escape marker, first
matching command name in registry order, then the optional bracket
groups recognized by the regex), argument extraction, and the
scan-rewrite loop of ChangeProcessor.process.  The loop of the source
has no fuel; processFuel n runs at most n passes of the loop body and
yields none when the fuel is exhausted before the loop finishes, so
statements about termination and divergence are statements about
processFuel over all fuels.
-/

/-- Balance contribution of one character: the loop body of
find_balanced_braces increments on an opening brace and decrements on a
closing brace. -/
def chDelta (c : Char) : Int :=
  if c = '{' then 1 else if c = '}' then -1 else 0

/-- Sum of the balance contributions of a list of characters (the value
of the balance counter after scanning the list). -/
def delta : List Char → Int
  | [] => 0
  | c :: tl => chDelta c + delta tl

/-- The scanning loop of find_balanced_braces, acting on the suffix of
the buffer that starts at the scan position.  Starting balance b, it
returns the offset (relative to the start of the suffix) of the
character at which the balance counter first returns to zero, or none
when the counter never returns to zero before the buffer ends. -/
def braceScanL : List Char → Int → Option Nat
  | [], _ => none
  | c :: tl, b =>
    let b2 := b + chDelta c
    if b2 = 0 then some 0 else (braceScanL tl b2).map (fun k => k + 1)

/-- find_balanced_braces: if startPos is out of range or the character
there is not an opening brace, fail; otherwise scan forward with the
balance counter and return the content strictly between the opening
brace and the position where the counter returns to zero, together with
the index one past that position. -/
def findBalancedBraces (text : List Char) (startPos : Nat) :
    Option (List Char × Nat) :=
  match text.drop startPos with
  | [] => none
  | c :: rest =>
    if c = '{' then
      match braceScanL (c :: rest) 0 with
      | some off => some (rest.take (off - 1), startPos + off + 1)
      | none => none
    else none

/-- Modelled from the spec: the Command Kind descriptor of section 3 of
the spec (a unique name, a fixed argument count, an accept transform and
a reject transform).  The source module latex_merge_changes/commands.py,
which defines the Command class and the COMMAND_MAP registry, is not
under src/; the engine in core.py consumes it through exactly these
fields (command.num_args, command.accept(args), command.reject(args) and
the registry keys used to build the regex alternation). -/
structure Command where
  name : List Char
  numArgs : Nat
  accept : List (List Char) → List Char
  reject : List (List Char) → List Char

/-- Modelled from the spec: the decision source interface of section 6
of the spec.  The source module latex_merge_changes/handlers.py
(InteractionHandler.get_decision_for_change) is not under src/; the
engine compares its returned value with the strings a, r and k, so the
decision is modelled as the returned list of characters. -/
abbrev Handler := Command → List (List Char) → List Char

/-- Whitespace characters matched by the regex class backslash-s (ASCII
range), used between the command name and an optional bracket group. -/
def isPySpace (c : Char) : Bool :=
  c = ' ' || c = '\t' || c = '\n' || c = '\r' || c = '\x0b' || c = '\x0c'

/-- Number of leading whitespace characters (the greedy backslash-s star
of one optional-group repetition). -/
def countLeadingSpaces : List Char → Nat
  | [] => 0
  | c :: tl => if isPySpace c then countLeadingSpaces tl + 1 else 0

/-- Offset of the first closing bracket, failing at a newline or at the
end: the lazy dot-star of the regex cannot cross a newline and stops at
the first closing bracket. -/
def findRBracketL : List Char → Option Nat
  | [] => none
  | c :: tl =>
    if c = ']' then some 0
    else if c = '\n' then none
    else (findRBracketL tl).map (fun k => k + 1)

/-- One greedy repetition at a time of the optional-group part of the
command regex: whitespace, an opening bracket, lazy content, a closing
bracket.  Returns the total number of characters the star consumes.
Each successful repetition consumes at least two characters, so a fuel
equal to the length of the suffix is never exhausted. -/
def optGroupsLenAux : Nat → List Char → Nat
  | 0, _ => 0
  | fuel + 1, l =>
    let s := countLeadingSpaces l
    match l.drop s with
    | '[' :: rest2 =>
      match findRBracketL rest2 with
      | some r =>
        let consumed := s + 1 + r + 1
        consumed + optGroupsLenAux fuel (l.drop consumed)
      | none => 0
    | _ => 0

/-- Characters consumed after the command name by the zero-or-more
optional bracket groups of the command regex. -/
def optGroupsLen (l : List Char) : Nat :=
  optGroupsLenAux l.length l

/-- The regex search of the loop: leftmost occurrence of the escape
marker followed by a command name of the registry, trying names in
registry order at each position (the order of the regex alternation).
Returns the match start and the matched command kind. -/
def searchL (cmds : List Command) : List Char → Option (Nat × Command)
  | [] => none
  | c :: rest =>
    match
      (if c = '\\' then
        cmds.find? (fun cm => cm.name.isPrefixOf rest)
      else none) with
    | some cm => some (0, cm)
    | none => (searchL cmds rest).map (fun p => (p.1 + 1, p.2))

/-- End position of the regex match that starts at s: one for the escape
marker, the command name, then the optional bracket groups. -/
def matchEndOf (text : List Char) (s : Nat) (cmd : Command) : Nat :=
  s + 1 + cmd.name.length + optGroupsLen (text.drop (s + 1 + cmd.name.length))

/-- The argument-collection loop: extract n balanced brace groups in
sequence starting at pos, advancing to the returned end position after
each group; fail as soon as one extraction fails. -/
def extractArgs (text : List Char) : Nat → Nat → Option (List (List Char) × Nat)
  | 0, pos => some ([], pos)
  | n + 1, pos =>
    match findBalancedBraces text pos with
    | none => none
    | some (content, next) =>
      match extractArgs text n next with
      | none => none
      | some (args, e) => some (content :: args, e)

/-- Outcome of one pass of the loop body of process: the loop finishes
(no match), malformed-command recovery (carrying the diagnostic data:
the command name and the match position), or a resolved occurrence (the
decision source was invoked once, with the command kind and the
arguments carried here). -/
inductive Step where
  | done : Step
  | malformed : List Char → List Char → Nat → Step
  | resolved : List Char → Command → List (List Char) → Step

/-- Replacement string chosen from the decision: the accept transform on
a, the reject transform on r, the original matched span on k, and the
empty string (the initialized value of replacement in process) on any
other decision. -/
def replacementOf (text : List Char) (s endPos : Nat) (cmd : Command)
    (action : List Char) (args : List (List Char)) : List Char :=
  if action = ['a'] then cmd.accept args
  else if action = ['r'] then cmd.reject args
  else if action = ['k'] then (text.drop s).take (endPos - s)
  else []

/-- One pass of the loop body of ChangeProcessor.process: search, then
argument extraction, then either malformed recovery (delete the matched
command text, keep everything after the match end) or the decision and
the splice of the replacement between the text before the match start
and the text after the last consumed position. -/
def processStep (cmds : List Command) (handler : Handler)
    (text : List Char) : Step :=
  match searchL cmds text with
  | none => Step.done
  | some (s, cmd) =>
    match extractArgs text cmd.numArgs (matchEndOf text s cmd) with
    | none => Step.malformed (text.take s ++ text.drop (matchEndOf text s cmd)) cmd.name s
    | some (args, endPos) =>
      Step.resolved
        (text.take s ++
          (replacementOf text s endPos cmd (handler cmd args) args ++
            text.drop endPos))
        cmd args

/-- The while-true loop of process, run with fuel: some when the loop
finishes within the given number of passes, none when the fuel is
exhausted first. -/
def processFuel (cmds : List Command) (handler : Handler) :
    Nat → List Char → Option (List Char)
  | 0, _ => none
  | n + 1, text =>
    match processStep cmds handler text with
    | Step.done => some text
    | Step.malformed t _ _ => processFuel cmds handler n t
    | Step.resolved t _ _ => processFuel cmds handler n t

/-- Number of invocations of the decision source during the first n
passes of the loop (one per resolved occurrence, none on malformed
recovery, none after the loop finishes). -/
def processCalls (cmds : List Command) (handler : Handler) :
    Nat → List Char → Nat
  | 0, _ => 0
  | n + 1, text =>
    match processStep cmds handler text with
    | Step.done => 0
    | Step.malformed t _ _ => processCalls cmds handler n t
    | Step.resolved t _ _ => 1 + processCalls cmds handler n t

/-- An occurrence of a recognized command begins at position p: the
escape marker there, immediately followed by a registry name. -/
def occursAt (cmds : List Command) (text : List Char) (p : Nat) : Bool :=
  (text.get? p == some '\\') &&
    cmds.any (fun cm => cm.name.isPrefixOf (text.drop (p + 1)))

/-- Number of positions at which an occurrence of a recognized command
begins. -/
def countOccs (cmds : List Command) : List Char → Nat
  | [] => 0
  | c :: rest =>
    (if c = '\\' && cmds.any (fun cm => cm.name.isPrefixOf rest) then 1 else 0)
      + countOccs cmds rest

/-- A one-argument command kind named added whose accept transform
returns its sole argument unmodified and whose reject transform returns
the empty string. -/
def addedCmd : Command :=
  { name := "added".toList
    numArgs := 1
    accept := fun args => args.headD []
    reject := fun _ => [] }

/-- Registry holding only the added command kind. -/
def demoCmds : List Command := [addedCmd]

/-- Decision source that always answers keep. -/
def keepHandler : Handler := fun _ _ => ['k']

/-- Decision source that always answers accept. -/
def acceptHandler : Handler := fun _ _ => ['a']

/-- Decision source that always answers reject. -/
def rejectHandler : Handler := fun _ _ => ['r']

/-- Decision source that always answers a value outside the decision
contract. -/
def otherHandler : Handler := fun _ _ => ['x']

/-- A buffer holding one occurrence of the added command. -/
def keepText : List Char := "Hello \\added\x7bx\x7d!".toList

/-- The end-to-end scenario buffer of the spec. -/
def helloText : List Char := "Hello \\added\x7bnew text\x7d world.".toList

/-- A one-argument command kind named cmdname (the malformed-recovery
scenario of the spec), with transforms that return the empty string. -/
def cmdnameCmd : Command :=
  { name := "cmdname".toList
    numArgs := 1
    accept := fun _ => []
    reject := fun _ => [] }

/-- The malformed-recovery scenario buffer: an opening brace whose group
never closes. -/
def cmdnameText : List Char := "\\cmdname\x7bunbalanced".toList

/-- A one-argument command kind named added whose accept transform
returns the fixed marker-free string ded. -/
def dedCmd : Command :=
  { name := "added".toList
    numArgs := 1
    accept := fun _ => "ded".toList
    reject := fun _ => [] }

/-- Registry holding only dedCmd. -/
def cexCmds : List Command := [dedCmd]

/-- A buffer with a single occurrence of the added command, whose prefix
forms a new occurrence together with the spliced accept transform
output. -/
def cexText : List Char := "\\ad\\added\x7bX\x7d".toList

/-- A one-argument command kind named added whose transforms both return
the empty string. -/
def emptyCmd : Command :=
  { name := "added".toList
    numArgs := 1
    accept := fun _ => []
    reject := fun _ => [] }

/-- Registry holding only emptyCmd. -/
def wCmds : List Command := [emptyCmd]

/-- A buffer with one occurrence of the added command. -/
def wText : List Char := "\\added\x7bhi\x7d".toList

/-- A buffer with no occurrence of any recognized command. -/
def cleanText : List Char := "No commands here.".toList

/-- A buffer with one balanced brace group at position 2. -/
def wbText : List Char := "ab\x7bcd\x7def".toList

/-! ### Brace matcher lemmas -/

lemma delta_take_cons (c : Char) (tl : List Char) (k : Nat) :
    delta ((c :: tl).take (k + 1)) = chDelta c + delta (tl.take k) := rfl

lemma delta_nil : delta [] = 0 := rfl

lemma chDelta_ge (c : Char) : -1 ≤ chDelta c := by
  simp only [chDelta]; split_ifs <;> omega

lemma braceScanL_none_iff (rest : List Char) :
    ∀ b : Int, braceScanL rest b = none ↔
      ∀ k, k < rest.length → b + delta (rest.take (k + 1)) ≠ 0 := by
  induction rest with
  | nil => intro b; simp [braceScanL]
  | cons c tl ih =>
    intro b
    simp only [braceScanL]
    by_cases hb : b + chDelta c = 0
    · rw [if_pos hb]
      constructor
      · intro h; exact absurd h (by simp)
      · intro h
        exfalso
        refine h 0 (by simp) ?_
        rw [delta_take_cons]
        have h0 : delta (tl.take 0) = 0 := rfl
        omega
    · rw [if_neg hb, Option.map_eq_none', ih (b + chDelta c)]
      constructor
      · intro h k hk
        cases k with
        | zero =>
          rw [delta_take_cons]
          have h0 : delta (tl.take 0) = 0 := rfl
          omega
        | succ k =>
          rw [delta_take_cons]
          have := h k (by simpa using Nat.lt_of_succ_lt_succ hk)
          omega
      · intro h k hk
        have := h (k + 1) (by simpa using Nat.succ_lt_succ hk)
        rw [delta_take_cons] at this
        omega
  
lemma braceScanL_some_spec (rest : List Char) :
    ∀ (b : Int) (off : Nat), braceScanL rest b = some off →
      off < rest.length ∧ b + delta (rest.take (off + 1)) = 0 ∧
        ∀ k, k < off → b + delta (rest.take (k + 1)) ≠ 0 := by
  induction rest with
  | nil => intro b off h; simp [braceScanL] at h
  | cons c tl ih =>
    intro b off h
    simp only [braceScanL] at h
    by_cases hb : b + chDelta c = 0
    · rw [if_pos hb] at h
      obtain rfl : (0 : Nat) = off := Option.some.inj h
      refine ⟨by simp, ?_, fun k hk => absurd hk (by omega)⟩
      rw [delta_take_cons]
      have h0 : delta (tl.take 0) = 0 := rfl
      omega
    · rw [if_neg hb] at h
      obtain ⟨off2, h2, rfl⟩ := Option.map_eq_some'.mp h
      obtain ⟨hlen, hzero, hnz⟩ := ih (b + chDelta c) off2 h2
      refine ⟨by simpa using Nat.succ_lt_succ hlen, ?_, ?_⟩
      · rw [delta_take_cons]; omega
      · intro k hk
        cases k with
        | zero =>
          rw [delta_take_cons]
          have h0 : delta (tl.take 0) = 0 := rfl
          omega
        | succ k =>
          rw [delta_take_cons]
          have := hnz k (by omega)
          omega

lemma braceScanL_close_char (rest : List Char) :
    ∀ (b : Int) (off : Nat), 1 ≤ b → braceScanL rest b = some off →
      rest.get? off = some '}' := by
  induction rest with
  | nil => intro b off _ h; simp [braceScanL] at h
  | cons c tl ih =>
    intro b off hb h
    simp only [braceScanL] at h
    by_cases h0 : b + chDelta c = 0
    · rw [if_pos h0] at h
      obtain rfl : (0 : Nat) = off := Option.some.inj h
      have hc : c = '}' := by
        by_cases hc1 : c = '{'
        · exfalso; simp only [chDelta, if_pos hc1] at h0; omega
        · by_cases hc2 : c = '}'
          · exact hc2
          · exfalso; simp only [chDelta, if_neg hc1, if_neg hc2] at h0; omega
      rw [hc]; rfl
    · rw [if_neg h0] at h
      obtain ⟨off2, h2, rfl⟩ := Option.map_eq_some'.mp h
      have hb2 : 1 ≤ b + chDelta c := by
        have := chDelta_ge c
        omega
      exact ih (b + chDelta c) off2 hb2 h2

lemma fbb_some_spec (text : List Char) (pos : Nat) (content : List Char)
    (endPos : Nat) (h : findBalancedBraces text pos = some (content, endPos)) :
    ∃ off tl, text.drop pos = '{' :: tl ∧ braceScanL ('{' :: tl) 0 = some off ∧
      1 ≤ off ∧ off ≤ tl.length ∧ endPos = pos + off + 1 ∧
      content = tl.take (off - 1) ∧ tl.get? (off - 1) = some '}' := by
  unfold findBalancedBraces at h
  cases hdrop : text.drop pos with
  | nil => rw [hdrop] at h; exact absurd h (by simp)
  | cons c tl =>
    rw [hdrop] at h
    have h2 : (if c = '{' then
        (match braceScanL (c :: tl) 0 with
          | some off => some (tl.take (off - 1), pos + off + 1)
          | none => none)
      else none) = some (content, endPos) := h
    clear h
    by_cases hc : c = '{'
    · subst hc
      rw [if_pos rfl] at h2
      cases hscan : braceScanL ('{' :: tl) 0 with
      | none => rw [hscan] at h2; exact absurd h2 (by simp)
      | some off =>
        rw [hscan] at h2
        simp only [Option.some.injEq, Prod.mk.injEq] at h2
        obtain ⟨hcon, hend⟩ := h2
        have hunf : braceScanL ('{' :: tl) 0 = (braceScanL tl 1).map (fun k => k + 1) := by
          have h1 : (0 : Int) + chDelta '{' = 1 := by simp [chDelta]
          simp only [braceScanL, h1]
          norm_num
        rw [hunf] at hscan
        obtain ⟨off2, hs2, hoff⟩ := Option.map_eq_some'.mp hscan
        have hclose := braceScanL_close_char tl 1 off2 (le_refl 1) hs2
        have hspec := braceScanL_some_spec ('{' :: tl) 0 off (by rw [hunf, hs2]; simp [hoff])
        refine ⟨off, tl, rfl, by rw [hunf, hs2]; simp [hoff], by omega, ?_, hend.symm,
          hcon.symm, ?_⟩
        · have := hspec.1
          simp only [List.length_cons] at this
          omega
        · have : off - 1 = off2 := by omega
          rw [this]; exact hclose
    · rw [if_neg hc] at h2; exact absurd h2 (by simp)

lemma fbb_bounds (text : List Char) (pos : Nat) (content : List Char)
    (endPos : Nat) (h : findBalancedBraces text pos = some (content, endPos)) :
    pos + 2 ≤ endPos ∧ endPos ≤ text.length ∧
      text.get? (endPos - 1) = some '}' ∧
      content = (text.drop (pos + 1)).take (endPos - 1 - (pos + 1)) := by
  obtain ⟨off, tl, hdrop, _, hoff1, hofflen, hend, hcon, hclose⟩ :=
    fbb_some_spec text pos content endPos h
  have hpos : pos < text.length := by
    by_contra hge
    rw [List.drop_eq_nil_iff.mpr (by omega)] at hdrop
    exact absurd hdrop (by simp)
  have hlen : tl.length + 1 = text.length - pos := by
    have := congrArg List.length hdrop
    simp only [List.length_drop, List.length_cons] at this
    omega
  have htl : text.drop (pos + 1) = tl := by
    have h1 : (text.drop pos).drop 1 = text.drop (pos + 1) := List.drop_drop 1 pos text
    rw [hdrop] at h1
    exact h1.symm
  refine ⟨by omega, by omega, ?_, ?_⟩
  · have h1 : text.get? (pos + off) = (text.drop pos).get? off := by
      simp [List.getElem?_drop]
    have h2 : (text.drop pos).get? off = tl.get? (off - 1) := by
      rw [hdrop]
      obtain ⟨off2, rfl⟩ : ∃ k, off = k + 1 := ⟨off - 1, by omega⟩
      simp
    have h3 : endPos - 1 = pos + off := by omega
    rw [h3, h1, h2]
    exact hclose
  · rw [htl, hcon]
    congr 1
    omega

/-! ### Splice and extraction lemmas -/

lemma splice_keep_eq (l : List Char) (s e : Nat) (h : s ≤ e) :
    l.take s ++ ((l.drop s).take (e - s) ++ l.drop e) = l := by
  have h1 : (l.drop s).drop (e - s) = l.drop e := by
    rw [List.drop_drop]
    congr 1
    omega
  conv_rhs => rw [← List.take_append_drop s l]
  congr 1
  conv_rhs => rw [← List.take_append_drop (e - s) (l.drop s)]
  rw [h1]

lemma drop_get_cons (c : Char) :
    ∀ (s : Nat) (l : List Char), l.get? s = some c →
      l.drop s = c :: l.drop (s + 1) := by
  intro s
  induction s with
  | zero =>
    intro l h
    cases l with
    | nil => exact absurd h (by simp)
    | cons a tl =>
      have : a = c := by simpa using h
      simp [this]
  | succ s ih =>
    intro l h
    cases l with
    | nil => exact absurd h (by simp)
    | cons a tl =>
      have h2 : tl.get? s = some c := h
      have := ih tl h2
      simpa using this

lemma splice_count_lt (l repl : List Char) (s e : Nat) (hse : s < e)
    (hget : l.get? s = some '\\') (hrepl : repl.count '\\' = 0) :
    (l.take s ++ (repl ++ l.drop e)).count '\\' < l.count '\\' := by
  have hdecomp : l = l.take s ++ ((l.drop s).take (e - s) ++ l.drop e) :=
    (splice_keep_eq l s e (by omega)).symm
  have hmid : 1 ≤ ((l.drop s).take (e - s)).count '\\' := by
    rw [drop_get_cons '\\' s l hget]
    obtain ⟨m, hm⟩ : ∃ m, e - s = m + 1 := ⟨e - s - 1, by omega⟩
    rw [hm, List.take_succ_cons, List.count_cons_self]
    omega
  have h1 : l.count '\\' =
      (l.take s).count '\\' + (((l.drop s).take (e - s)).count '\\' + (l.drop e).count '\\') := by
    conv_lhs => rw [hdecomp]
    rw [List.count_append, List.count_append]
  have h2 : (l.take s ++ (repl ++ l.drop e)).count '\\' =
      (l.take s).count '\\' + (repl.count '\\' + (l.drop e).count '\\') := by
    rw [List.count_append, List.count_append]
  omega

lemma extractArgs_bounds (text : List Char) :
    ∀ (n pos : Nat) (args : List (List Char)) (e : Nat),
      extractArgs text n pos = some (args, e) →
      pos ≤ e ∧ (1 ≤ n → pos + 2 ≤ e ∧ e ≤ text.length) := by
  intro n
  induction n with
  | zero =>
    intro pos args e h
    simp only [extractArgs, Option.some.injEq, Prod.mk.injEq] at h
    obtain ⟨-, he⟩ := h
    subst he
    exact ⟨le_refl _, by omega⟩
  | succ n ih =>
    intro pos args e h
    simp only [extractArgs] at h
    cases hf : findBalancedBraces text pos with
    | none => rw [hf] at h; exact absurd h (by simp)
    | some q =>
      obtain ⟨content, next⟩ := q
      rw [hf] at h
      have h2 : (match extractArgs text n next with
        | none => none
        | some (args, e) => some (content :: args, e)) = some (args, e) := h
      clear h
      cases hrec : extractArgs text n next with
      | none => rw [hrec] at h2; exact absurd h2 (by simp)
      | some q2 =>
        obtain ⟨args2, e2⟩ := q2
        rw [hrec] at h2
        simp only [Option.some.injEq, Prod.mk.injEq] at h2
        obtain ⟨-, he⟩ := h2
        subst he
        obtain ⟨hb1, hb2, -, -⟩ := fbb_bounds text pos content next hf
        obtain ⟨hrec1, hrec2⟩ := ih next args2 e2 hrec
        cases n with
        | zero =>
          have he2 : e2 = next := by
            simp only [extractArgs, Option.some.injEq, Prod.mk.injEq] at hrec
            omega
          exact ⟨by omega, fun _ => by omega⟩
        | succ n =>
          have := hrec2 (by omega)
          exact ⟨by omega, fun _ => by omega⟩

/-! ### Search and step lemmas -/

lemma searchL_sound (cmds : List Command) :
    ∀ (l : List Char) (s : Nat) (cmd : Command),
      searchL cmds l = some (s, cmd) →
      l.get? s = some '\\' ∧ cmd ∈ cmds := by
  intro l
  induction l with
  | nil => intro s cmd h; exact absurd h (by simp [searchL])
  | cons c rest ih =>
    intro s cmd h
    simp only [searchL] at h
    by_cases hc : c = '\\'
    · rw [if_pos hc] at h
      cases hfind : cmds.find? (fun cm => cm.name.isPrefixOf rest) with
      | some cm =>
        rw [hfind] at h
        simp only [Option.some.injEq, Prod.mk.injEq] at h
        obtain ⟨hs, hcm⟩ := h
        subst hs
        subst hcm
        exact ⟨by simp [hc], List.mem_of_find?_eq_some hfind⟩
      | none =>
        rw [hfind] at h
        obtain ⟨⟨s2, cm2⟩, h2, h3⟩ := Option.map_eq_some'.mp h
        simp only [Prod.mk.injEq] at h3
        obtain ⟨hs, hcm⟩ := h3
        subst hs
        subst hcm
        obtain ⟨hg, hm⟩ := ih s2 cm2 h2
        exact ⟨hg, hm⟩
    · rw [if_neg hc] at h
      obtain ⟨⟨s2, cm2⟩, h2, h3⟩ := Option.map_eq_some'.mp h
      simp only [Prod.mk.injEq] at h3
      obtain ⟨hs, hcm⟩ := h3
      subst hs
      subst hcm
      obtain ⟨hg, hm⟩ := ih s2 cm2 h2
      exact ⟨hg, hm⟩

lemma occursAt_cons (cmds : List Command) (c : Char) (rest : List Char) (p : Nat) :
    occursAt cmds (c :: rest) (p + 1) = occursAt cmds rest p := rfl

lemma searchL_eq_none (cmds : List Command) :
    ∀ (l : List Char), (∀ p, p < l.length → occursAt cmds l p = false) →
      searchL cmds l = none := by
  intro l
  induction l with
  | nil => intro _; rfl
  | cons c rest ih =>
    intro h
    have h0 := h 0 (by simp)
    simp only [occursAt, List.get?, List.drop_succ_cons, List.drop_zero,
      Bool.and_eq_false_imp] at h0
    have hrest : searchL cmds rest = none := by
      refine ih ?_
      intro p hp
      have := h (p + 1) (by simpa using Nat.succ_lt_succ hp)
      rwa [occursAt_cons] at this
    simp only [searchL]
    by_cases hc : c = '\\'
    · rw [if_pos hc]
      have hfind : cmds.find? (fun cm => cm.name.isPrefixOf rest) = none := by
        rw [List.find?_eq_none]
        have hany := h0 (by rw [hc]; exact beq_self_eq_true _)
        rw [List.any_eq_false] at hany
        exact hany
      rw [hfind, hrest]
      rfl
    · rw [if_neg hc, hrest]
      rfl

lemma processStep_done (cmds : List Command) (handler : Handler)
    (text : List Char) (h : searchL cmds text = none) :
    processStep cmds handler text = Step.done := by
  simp [processStep, h]

lemma processStep_malformed_eq (cmds : List Command) (handler : Handler)
    (text : List Char) (s : Nat) (cmd : Command)
    (hs : searchL cmds text = some (s, cmd))
    (hext : extractArgs text cmd.numArgs (matchEndOf text s cmd) = none) :
    processStep cmds handler text =
      Step.malformed (text.take s ++ text.drop (matchEndOf text s cmd)) cmd.name s := by
  simp [processStep, hs, hext]

lemma processStep_resolved_eq (cmds : List Command) (handler : Handler)
    (text : List Char) (s : Nat) (cmd : Command) (args : List (List Char))
    (endPos : Nat) (hs : searchL cmds text = some (s, cmd))
    (hext : extractArgs text cmd.numArgs (matchEndOf text s cmd) = some (args, endPos)) :
    processStep cmds handler text =
      Step.resolved
        (text.take s ++
          (replacementOf text s endPos cmd (handler cmd args) args ++ text.drop endPos))
        cmd args := by
  simp [processStep, hs, hext]

lemma processFuel_succ (cmds : List Command) (handler : Handler) (n : Nat)
    (text : List Char) :
    processFuel cmds handler (n + 1) text =
      match processStep cmds handler text with
      | Step.done => some text
      | Step.malformed t _ _ => processFuel cmds handler n t
      | Step.resolved t _ _ => processFuel cmds handler n t := rfl

lemma processCalls_succ (cmds : List Command) (handler : Handler) (n : Nat)
    (text : List Char) :
    processCalls cmds handler (n + 1) text =
      match processStep cmds handler text with
      | Step.done => 0
      | Step.malformed t _ _ => processCalls cmds handler n t
      | Step.resolved t _ _ => 1 + processCalls cmds handler n t := rfl

/-! ### Claim theorems -/

/-- C3: for every buffer and position, the brace matcher returns Failure
exactly when the position is out of range, or the character there is not
an opening brace, or the nesting counter (incremented on every opening
brace, decremented on every closing brace, arbitrary depth) never
returns to zero before the buffer ends; on success it returns the
substring strictly between the opening brace and the position j at
which the counter first returns to zero (the nesting-balanced matching
close), together with the index one past j. -/
theorem brace_matcher_correct (text : List Char) (pos : Nat) :
    (findBalancedBraces text pos = none ↔
      text.length ≤ pos ∨ text.get? pos ≠ some '{' ∨
        ∀ k, k < (text.drop pos).length → delta ((text.drop pos).take (k + 1)) ≠ 0)
    ∧ ∀ content endPos, findBalancedBraces text pos = some (content, endPos) →
        ∃ j, pos < j ∧ j < text.length ∧ endPos = j + 1 ∧
          delta ((text.drop pos).take (j - pos + 1)) = 0 ∧
          (∀ k, k < j - pos → delta ((text.drop pos).take (k + 1)) ≠ 0) ∧
          content = (text.drop (pos + 1)).take (j - (pos + 1)) := by
  cases hdrop : text.drop pos with
  | nil =>
    have hnone : findBalancedBraces text pos = none := by
      unfold findBalancedBraces
      rw [hdrop]
    have hlen : text.length ≤ pos := List.drop_eq_nil_iff.mp hdrop
    refine ⟨⟨fun _ => Or.inl hlen, fun _ => hnone⟩, ?_⟩
    intro content endPos h
    rw [hnone] at h
    exact absurd h (by simp)
  | cons c tl =>
    have hpos : pos < text.length := by
      by_contra hge
      rw [List.drop_eq_nil_iff.mpr (by omega)] at hdrop
      exact absurd hdrop (by simp)
    have hget : text.get? pos = some c := by
      have h1 : (text.drop pos).get? 0 = text.get? (pos + 0) := by
        simp [List.getElem?_drop]
      rw [hdrop] at h1
      simpa using h1.symm
    by_cases hc : c = '{'
    · subst hc
      have hfbb : findBalancedBraces text pos =
          (match braceScanL ('{' :: tl) 0 with
            | some off => some (tl.take (off - 1), pos + off + 1)
            | none => none) := by
        unfold findBalancedBraces
        rw [hdrop]
        rfl
      cases hscan : braceScanL ('{' :: tl) 0 with
      | none =>
        have hnone : findBalancedBraces text pos = none := by rw [hfbb, hscan]
        refine ⟨⟨fun _ => Or.inr (Or.inr ?_), fun _ => hnone⟩, ?_⟩
        · intro k hk
          have := (braceScanL_none_iff ('{' :: tl) 0).mp hscan k hk
          omega
        · intro content endPos h
          rw [hnone] at h
          exact absurd h (by simp)
      | some off =>
        have hsome : findBalancedBraces text pos = some (tl.take (off - 1), pos + off + 1) := by
          rw [hfbb, hscan]
        obtain ⟨hofflen, hzero, hnz⟩ := braceScanL_some_spec ('{' :: tl) 0 off hscan
        have hoff1 : 1 ≤ off := by
          by_contra h0
          have hoff0 : off = 0 := by omega
          subst hoff0
          rw [delta_take_cons] at hzero
          have h00 : delta (tl.take 0) = 0 := rfl
          have hch : chDelta '{' = 1 := by simp [chDelta]
          omega
        have hlen2 : tl.length + 1 = text.length - pos := by
          have := congrArg List.length hdrop
          simp only [List.length_drop, List.length_cons] at this
          omega
        constructor
        · constructor
          · intro h
            rw [hsome] at h
            exact absurd h (by simp)
          · intro h
            exfalso
            rcases h with h | h | h
            · omega
            · exact h (by rw [hget])
            · refine h off (by simpa using hofflen) ?_
              omega
        · intro content endPos h
          rw [hsome] at h
          simp only [Option.some.injEq, Prod.mk.injEq] at h
          obtain ⟨hcon, hend⟩ := h
          have hsub : pos + off - pos = off := by omega
          refine ⟨pos + off, by omega, ?_, by omega, ?_, ?_, ?_⟩
          · simp only [List.length_cons] at hofflen
            omega
          · rw [hsub]
            omega
          · intro k hk
            rw [hsub] at hk
            have := hnz k hk
            omega
          · have htl : text.drop (pos + 1) = tl := by
              have h1 : (text.drop pos).drop 1 = text.drop (pos + 1) := List.drop_drop 1 pos text
              rw [hdrop] at h1
              exact h1.symm
            rw [htl, ← hcon]
            congr 1
            omega
    · have hnone : findBalancedBraces text pos = none := by
        unfold findBalancedBraces
        rw [hdrop]
        exact if_neg hc
      refine ⟨⟨fun _ => Or.inr (Or.inl ?_), fun _ => hnone⟩, ?_⟩
      · rw [hget]
        simp [hc]
      · intro content endPos h
        rw [hnone] at h
        exact absurd h (by simp)

/-- C3 witness: the brace matcher applied to the concrete buffer
ab-open-cd-close-ef at position 2. -/
theorem brace_matcher_correct_witness :
    ∃ j, 2 < j ∧ j < wbText.length ∧ 6 = j + 1 ∧
      delta ((wbText.drop 2).take (j - 2 + 1)) = 0 ∧
      (∀ k, k < j - 2 → delta ((wbText.drop 2).take (k + 1)) ≠ 0) ∧
      ("cd".toList) = (wbText.drop (2 + 1)).take (j - (2 + 1)) :=
  (brace_matcher_correct wbText 2).2 ("cd".toList) 6 (by decide)

/-- C10: whenever the brace matcher succeeds on (text, pos), the
returned end position satisfies pos + 2 <= endPos <= length, the
character at endPos - 1 is the matching closing brace, and the content
is the slice strictly between the braces; hence every successful
argument extraction (of at least one argument) strictly advances the
scan position and stays within the buffer bounds. -/
theorem brace_matcher_bounds (text : List Char) (pos : Nat) :
    (∀ content endPos, findBalancedBraces text pos = some (content, endPos) →
        pos + 2 ≤ endPos ∧ endPos ≤ text.length ∧
        text.get? (endPos - 1) = some '}' ∧
        content = (text.drop (pos + 1)).take (endPos - 1 - (pos + 1)))
    ∧ ∀ n args e, extractArgs text n pos = some (args, e) → 1 ≤ n →
        pos + 2 ≤ e ∧ e ≤ text.length := by
  constructor
  · intro content endPos h
    exact fbb_bounds text pos content endPos h
  · intro n args e h hn
    exact (extractArgs_bounds text n pos args e h).2 hn

/-- C10 witness: the bounds at the concrete buffer and position of the
C3 witness. -/
theorem brace_matcher_bounds_witness :
    2 + 2 ≤ 6 ∧ 6 ≤ wbText.length ∧ wbText.get? (6 - 1) = some '}' ∧
      ("cd".toList) = (wbText.drop (2 + 1)).take (6 - 1 - (2 + 1)) :=
  (brace_matcher_bounds wbText 2).1 ("cd".toList) 6 (by decide)

/-- C4: whenever any of the expected brace-group extractions fails, the
loop pass deletes exactly the matched command text (everything before
the match start and everything from the match end onward is kept, so a
partially consumed unbalanced brace fragment stays in the buffer),
carries a diagnostic naming the command and its position, and is
independent of the decision source (the decision source is not
invoked); in particular the cmdname buffer with an unbalanced brace
group yields the buffer with the command token removed and zero
recognized occurrences remaining. -/
theorem malformed_recovery_policy :
    (∀ (cmds : List Command) (handler handler2 : Handler) (text : List Char)
        (s : Nat) (cmd : Command),
        searchL cmds text = some (s, cmd) →
        extractArgs text cmd.numArgs (matchEndOf text s cmd) = none →
        processStep cmds handler text =
            Step.malformed (text.take s ++ text.drop (matchEndOf text s cmd)) cmd.name s ∧
          processStep cmds handler2 text = processStep cmds handler text)
    ∧ ∀ handler : Handler,
        processFuel [cmdnameCmd] handler 2 cmdnameText = some ("\x7bunbalanced".toList) ∧
          countOccs [cmdnameCmd] ("\x7bunbalanced".toList) = 0 := by
  constructor
  · intro cmds handler handler2 text s cmd hs hext
    have e1 := processStep_malformed_eq cmds handler text s cmd hs hext
    have e2 := processStep_malformed_eq cmds handler2 text s cmd hs hext
    exact ⟨e1, e2.trans e1.symm⟩
  · intro handler
    exact ⟨rfl, by decide⟩

/-- C4 witness: the general malformed-recovery statement applied to the
concrete cmdname buffer, with two different decision sources. -/
theorem malformed_recovery_policy_witness :
    processStep [cmdnameCmd] keepHandler cmdnameText =
      Step.malformed
        (cmdnameText.take 0 ++ cmdnameText.drop (matchEndOf cmdnameText 0 cmdnameCmd))
        cmdnameCmd.name 0 :=
  (malformed_recovery_policy.1 [cmdnameCmd] keepHandler acceptHandler cmdnameText 0
    cmdnameCmd rfl (by decide)).1

/-- C5: for a successfully extracted occurrence, an accept decision
splices the accept transform of the arguments, a reject decision the
reject transform, and a keep decision the verbatim original span from
the match start (the escape marker that opens the command token) to the
end of the last consumed argument; in every case the next buffer is
exactly the text before the match start, the replacement, and the text
after the last consumed position. -/
theorem decision_splice_mapping (cmds : List Command) (handler : Handler)
    (text : List Char) (s endPos : Nat) (cmd : Command) (args : List (List Char))
    (hs : searchL cmds text = some (s, cmd))
    (hext : extractArgs text cmd.numArgs (matchEndOf text s cmd) = some (args, endPos)) :
    (handler cmd args = ['a'] →
      processStep cmds handler text =
        Step.resolved (text.take s ++ (cmd.accept args ++ text.drop endPos)) cmd args)
    ∧ (handler cmd args = ['r'] →
      processStep cmds handler text =
        Step.resolved (text.take s ++ (cmd.reject args ++ text.drop endPos)) cmd args)
    ∧ (handler cmd args = ['k'] →
      processStep cmds handler text =
        Step.resolved
          (text.take s ++ ((text.drop s).take (endPos - s) ++ text.drop endPos))
          cmd args) := by
  have hstep := processStep_resolved_eq cmds handler text s cmd args endPos hs hext
  refine ⟨fun ha => ?_, fun hr => ?_, fun hk => ?_⟩
  · rw [hstep, replacementOf, if_pos ha]
  · rw [hstep, replacementOf, if_neg (by rw [hr]; decide), if_pos hr]
  · rw [hstep, replacementOf, if_neg (by rw [hk]; decide), if_neg (by rw [hk]; decide),
      if_pos hk]

/-- C5 witness: the accept case at the concrete added-command buffer. -/
theorem decision_splice_mapping_witness :
    processStep demoCmds acceptHandler keepText =
      Step.resolved
        (keepText.take 6 ++ (addedCmd.accept [("x".toList)] ++ keepText.drop 15))
        addedCmd [("x".toList)] :=
  (decision_splice_mapping demoCmds acceptHandler keepText 6 15 addedCmd
    [("x".toList)] rfl rfl).1 rfl

/-- C6: a decision value outside accept, reject and keep is treated as a
no-op replacement: the original command text through the end of its
last consumed argument is removed with no substitution, and the
surrounding text is spliced exactly as in the normal path. -/
theorem unknown_decision_noop (cmds : List Command) (handler : Handler)
    (text : List Char) (s endPos : Nat) (cmd : Command) (args : List (List Char))
    (hs : searchL cmds text = some (s, cmd))
    (hext : extractArgs text cmd.numArgs (matchEndOf text s cmd) = some (args, endPos))
    (ha : handler cmd args ≠ ['a']) (hr : handler cmd args ≠ ['r'])
    (hk : handler cmd args ≠ ['k']) :
    processStep cmds handler text =
      Step.resolved (text.take s ++ text.drop endPos) cmd args := by
  have hstep := processStep_resolved_eq cmds handler text s cmd args endPos hs hext
  rw [hstep, replacementOf, if_neg ha, if_neg hr, if_neg hk, List.nil_append]

/-- C6 witness: a decision source answering the out-of-contract value x
on the concrete added-command buffer. -/
theorem unknown_decision_noop_witness :
    processStep demoCmds otherHandler keepText =
      Step.resolved (keepText.take 6 ++ keepText.drop 15) addedCmd [("x".toList)] :=
  unknown_decision_noop demoCmds otherHandler keepText 6 15 addedCmd [("x".toList)]
    rfl rfl (by decide) (by decide) (by decide)

/-- C9: whenever the decision for a successfully extracted occurrence is
keep, the spliced replacement equals the replaced span character for
character, so the buffer produced by the pass is identical to the
buffer it started from. -/
theorem keep_splice_identity (cmds : List Command) (handler : Handler)
    (text : List Char) (s endPos : Nat) (cmd : Command) (args : List (List Char))
    (hs : searchL cmds text = some (s, cmd))
    (hext : extractArgs text cmd.numArgs (matchEndOf text s cmd) = some (args, endPos))
    (hk : handler cmd args = ['k']) :
    processStep cmds handler text = Step.resolved text cmd args := by
  have hse : s ≤ endPos := by
    have h1 := (extractArgs_bounds text cmd.numArgs (matchEndOf text s cmd) args endPos hext).1
    have h2 : s ≤ matchEndOf text s cmd := by
      unfold matchEndOf
      omega
    omega
  have hstep := (decision_splice_mapping cmds handler text s endPos cmd args hs hext).2.2 hk
  rw [hstep, splice_keep_eq text s endPos hse]

/-- C9 witness: the keep decision on the concrete added-command buffer
returns the buffer unchanged. -/
theorem keep_splice_identity_witness :
    processStep demoCmds keepHandler keepText = Step.resolved keepText addedCmd [("x".toList)] :=
  keep_splice_identity demoCmds keepHandler keepText 6 15 addedCmd [("x".toList)]
    rfl rfl rfl

/-- C8: an input with zero occurrences of recognized command names is
returned unchanged by every number of loop passes beyond the first, and
the decision source is never called. -/
theorem clean_input_identity (cmds : List Command) (handler : Handler)
    (text : List Char)
    (h : ∀ p, p < text.length → occursAt cmds text p = false) :
    ∀ n, processFuel cmds handler (n + 1) text = some text ∧
      processCalls cmds handler n text = 0 := by
  have hs : searchL cmds text = none := searchL_eq_none cmds text h
  have hstep : processStep cmds handler text = Step.done :=
    processStep_done cmds handler text hs
  intro n
  constructor
  · rw [processFuel_succ, hstep]
  · cases n with
    | zero => rfl
    | succ m => rw [processCalls_succ, hstep]

/-- C8 witness: a concrete buffer with no escape marker. -/
theorem clean_input_identity_witness :
    processFuel demoCmds keepHandler 2 cleanText = some cleanText ∧
      processCalls demoCmds keepHandler 1 cleanText = 0 :=
  clean_input_identity demoCmds keepHandler cleanText (by decide) 1

/-- C7: on the buffer Hello added-new-text world, the added command kind
(one argument, identity accept transform, empty reject transform) with
an always-accept decision source yields exactly Hello new text world,
and with an always-reject decision source yields exactly Hello double
space world, with the exact splice boundaries and no trimming. -/
theorem end_to_end_scenarios :
    processFuel demoCmds acceptHandler 2 helloText =
        some ("Hello new text world.".toList)
    ∧ processFuel demoCmds rejectHandler 2 helloText =
        some ("Hello  world.".toList) :=
  ⟨rfl, rfl⟩

/-- C1: code bug evidence.  On a buffer holding one occurrence of the
added command and a decision source that always answers keep, the loop
of process never finishes for any amount of fuel (the kept span is
spliced back verbatim and re-matched by the next scan pass, since the
source has no exclusion of already-kept spans), and the decision source
is re-offered the same occurrence once per pass, so it is called n
times in n passes rather than exactly once. -/
theorem keep_decision_nonterminating :
    ∀ n, processFuel demoCmds keepHandler n keepText = none ∧
      processCalls demoCmds keepHandler n keepText = n := by
  have hstep : processStep demoCmds keepHandler keepText =
      Step.resolved keepText addedCmd [("x".toList)] := by rfl
  intro n
  induction n with
  | zero => exact ⟨rfl, rfl⟩
  | succ n ih =>
    constructor
    · rw [processFuel_succ, hstep]
      exact ih.1
    · rw [processCalls_succ, hstep]
      show 1 + processCalls demoCmds keepHandler n keepText = n + 1
      rw [ih.2]
      omega

/-- C2 counterexample: the iteration count of process is not bounded by
the initial number of occurrences of recognized command names.  The
buffer backslash-ad backslash-added-X contains exactly one occurrence,
its accept transform emits the marker-free string ded, yet after one
pass the prefix and the replacement join into a new occurrence, so the
loop needs two rewrite passes (fuel 2 is exhausted, fuel 3 finishes).
With a keep decision the count is not even finite: on a one-occurrence
buffer the loop is still running after four passes. -/
theorem termination_bound_counterexample :
    countOccs cexCmds cexText = 1 ∧
      processFuel cexCmds acceptHandler 2 cexText = none ∧
      processFuel cexCmds acceptHandler 3 cexText = some [] ∧
      countOccs demoCmds keepText = 1 ∧
      processFuel demoCmds keepHandler 5 keepText = none := by
  refine ⟨by decide, by decide, by decide, by decide, by decide⟩

/-- C2 (amended): when the accept and reject transforms never emit the
escape marker and the decision source never answers keep, process
terminates within B rewrite passes, where B is the number of escape
markers in the input (each pass removes the span of the match, which
contains the escape marker at the match start, and splices in a
marker-free replacement, so B strictly decreases; B bounds the number
of occurrences but can exceed it). -/
theorem termination_escape_marker_bound (cmds : List Command) (handler : Handler)
    (h1 : ∀ c ∈ cmds, ∀ args, '\\' ∉ c.accept args ∧ '\\' ∉ c.reject args)
    (h2 : ∀ c args, handler c args ≠ ['k']) :
    ∀ (n : Nat) (text : List Char), text.count '\\' ≤ n →
      ∃ r, processFuel cmds handler (n + 1) text = some r := by
  intro n
  induction n with
  | zero =>
    intro text hcount
    cases hsearch : searchL cmds text with
    | none =>
      refine ⟨text, ?_⟩
      rw [processFuel_succ, processStep_done cmds handler text hsearch]
    | some p =>
      obtain ⟨s, cmd⟩ := p
      obtain ⟨hbs, -⟩ := searchL_sound cmds text s cmd hsearch
      have hmem : '\\' ∈ text := List.get?_mem hbs
      have : 0 < text.count '\\' := List.count_pos_iff.mpr hmem
      omega
  | succ n ih =>
    intro text hcount
    cases hsearch : searchL cmds text with
    | none =>
      refine ⟨text, ?_⟩
      rw [processFuel_succ, processStep_done cmds handler text hsearch]
    | some p =>
      obtain ⟨s, cmd⟩ := p
      obtain ⟨hbs, hmem⟩ := searchL_sound cmds text s cmd hsearch
      cases hext : extractArgs text cmd.numArgs (matchEndOf text s cmd) with
      | none =>
        have hsm : s < matchEndOf text s cmd := by
          unfold matchEndOf
          omega
        have hlt := splice_count_lt text [] s (matchEndOf text s cmd) hsm hbs rfl
        simp only [List.nil_append] at hlt
        obtain ⟨r, hr⟩ := ih (text.take s ++ text.drop (matchEndOf text s cmd)) (by omega)
        refine ⟨r, ?_⟩
        rw [processFuel_succ, processStep_malformed_eq cmds handler text s cmd hsearch hext]
        exact hr
      | some q =>
        obtain ⟨args, endPos⟩ := q
        have hse : s < endPos := by
          have hb1 := (extractArgs_bounds text cmd.numArgs (matchEndOf text s cmd)
            args endPos hext).1
          have hsm : s < matchEndOf text s cmd := by
            unfold matchEndOf
            omega
          omega
        have hrepl : (replacementOf text s endPos cmd (handler cmd args) args).count '\\' = 0 := by
          unfold replacementOf
          by_cases ha : handler cmd args = ['a']
          · rw [if_pos ha]
            exact List.count_eq_zero.mpr (h1 cmd hmem args).1
          · rw [if_neg ha]
            by_cases hr2 : handler cmd args = ['r']
            · rw [if_pos hr2]
              exact List.count_eq_zero.mpr (h1 cmd hmem args).2
            · rw [if_neg hr2, if_neg (h2 cmd args)]
              rfl
        have hlt := splice_count_lt text
          (replacementOf text s endPos cmd (handler cmd args) args) s endPos hse hbs hrepl
        obtain ⟨r, hr⟩ := ih
          (text.take s ++
            (replacementOf text s endPos cmd (handler cmd args) args ++ text.drop endPos))
          (by omega)
        refine ⟨r, ?_⟩
        rw [processFuel_succ,
          processStep_resolved_eq cmds handler text s cmd args endPos hsearch hext]
        exact hr

/-- C2 (amended) witness: a registry whose transforms return the empty
string, an always-accept decision source, and a one-marker buffer. -/
theorem termination_escape_marker_bound_witness :
    ∃ r, processFuel wCmds acceptHandler (wText.count '\\' + 1) wText = some r :=
  termination_escape_marker_bound wCmds acceptHandler
    (by
      intro c hc args
      rcases List.mem_singleton.mp hc with rfl
      exact ⟨List.not_mem_nil _, List.not_mem_nil _⟩)
    (by
      intro c args h
      have h2 : (['a'] : List Char) = ['k'] := h
      exact absurd h2 (by decide))
    (wText.count '\\') wText (Nat.le_refl _)
